import Mathlib

/-!
Shallow embedding of the cluster membership bookkeeping engine
(`src/cluster/member.go`): the member status registry (`memberStatusBook`)
and the per-node operation dedup/ordering gate (`memberOperationBook`).

Modelling conventions:
* `logicalTime` (an unsigned counter in the source) is `Nat`.
* Go `time.Time` and `time.Duration` are both modelled as `Int`
  (absolute nanoseconds); the Go zero `time.Time` is `0`, and
  `now.Sub(t)` is plain subtraction `now - t`.
* `messageType` is an opaque comparable tag; we use `String`.
* The Go map `map[string]*memberOperation` is modelled extensionally as a
  function `String → Option memberOperation` (per-key independent, no
  iteration-order guarantees, exactly like a Go map).
* `time.Now()` inside `save` becomes an explicit `now` argument.
* `rand.Int31n(len)` inside `randGet` becomes an explicit random draw `r`,
  reduced modulo the length; the empty-book case (a panic in Go) is the
  `none` branch of a total `Option`-returning function.
-/

abbrev logicalTime := Nat

def zeroLogicalTime : logicalTime := 0

abbrev messageType := String

/-- Opaque status tag carried by a member (the `MemberStatus` type is outside
the embedded core and never inspected by it). -/
abbrev MemberStatusTag := Nat

/-- Identity of a cluster peer (`member` struct in the source). -/
structure member where
  name : String
  tags : List (String × String)
  address : List Nat
  port : Nat
  status : MemberStatusTag
  memberListProtocolMin : Nat
  memberListProtocolMax : Nat
  memberListProtocolCurrent : Nat
  clusterProtocolMin : Nat
  clusterProtocolMax : Nat
  clusterProtocolCurrent : Nat
deriving DecidableEq

/-- A member plus its causal timestamp and gone wall-clock instant
(`memberStatus` struct). `goneTime = 0` models the unset Go zero time. -/
structure memberStatus extends member where
  lastMessageTime : logicalTime
  goneTime : Int
deriving DecidableEq

/-- The member status registry (`memberStatusBook`). -/
structure memberStatusBook where
  members : List memberStatus
  timeout : Int
deriving DecidableEq

def createMemberStatusBook (timeout : Int) : memberStatusBook :=
  { members := [], timeout := timeout }

/-- `Count` returns the number of records currently held. -/
def memberStatusBook.Count (msb : memberStatusBook) : Nat :=
  msb.members.length

/-- `add` appends a record unconditionally (`append` in Go appends at the end). -/
def memberStatusBook.add (msb : memberStatusBook) (m : memberStatus) : memberStatusBook :=
  { msb with members := msb.members ++ [m] }

/-- `randGet` indexes the slice at a random position. The draw `r` is reduced
modulo the length; on the empty book (where Go panics) the result is `none`. -/
def memberStatusBook.randGet (msb : memberStatusBook) (r : Nat) : Option memberStatus :=
  msb.members.get? (r % msb.members.length)

/-- The loop body of `remove`: walks the slice once, counting entries whose
name matches and collecting the others in order. -/
def removeLoop (memberName : String) : List memberStatus → Nat × List memberStatus
  | [] => (0, [])
  | ms :: rest =>
    let r := removeLoop memberName rest
    if ms.name = memberName then (r.1 + 1, r.2) else (r.1, ms :: r.2)

/-- `remove` drops every record named `memberName` and returns how many were
dropped, alongside the updated book. -/
def memberStatusBook.remove (msb : memberStatusBook) (memberName : String) :
    Nat × memberStatusBook :=
  let r := removeLoop memberName msb.members
  (r.1, { msb with members := r.2 })

/-- The loop body of the registry `cleanup`: partitions the slice, in order,
into records kept (`now - goneTime ≤ timeout`) and records removed. -/
def cleanupLoop (timeout now : Int) : List memberStatus → List memberStatus × List memberStatus
  | [] => ([], [])
  | ms :: rest =>
    let r := cleanupLoop timeout now rest
    if now - ms.goneTime ≤ timeout then (ms :: r.1, r.2) else (r.1, ms :: r.2)

/-- `cleanup` on the registry: retains the kept records and returns the
removed (expired) ones to the caller. -/
def memberStatusBook.cleanup (msb : memberStatusBook) (now : Int) :
    List memberStatus × memberStatusBook :=
  let r := cleanupLoop msb.timeout now msb.members
  (r.2, { msb with members := r.1 })

/-- `names` maps each held record to its member name, in order. -/
def memberStatusBook.names (msb : memberStatusBook) : List String :=
  msb.members.map (fun ms => ms.name)

/-- Latest accepted fact for one origin node (`memberOperation` struct). -/
structure memberOperation where
  msgType : messageType
  messageTime : logicalTime
  receiveTime : Int
deriving DecidableEq

/-- The operation dedup/ordering gate (`memberOperationBook`): one slot per
node name. -/
structure memberOperationBook where
  operations : String → Option memberOperation
  timeout : Int

def createMemberOperationBook (timeout : Int) : memberOperationBook :=
  { operations := fun _ => none, timeout := timeout }

/-- `save` accepts the fact iff the slot is empty or holds a strictly smaller
logical time (`!ok || msgTime > operation.messageTime` in the source); on
acceptance it overwrites the node's slot with the new fact stamped `now`. -/
def memberOperationBook.save (mob : memberOperationBook) (msgType : messageType)
    (nodeName : String) (msgTime : logicalTime) (now : Int) :
    Bool × memberOperationBook :=
  let newOperations : String → Option memberOperation := fun n =>
    if n = nodeName then
      some { msgType := msgType, messageTime := msgTime, receiveTime := now }
    else
      mob.operations n
  match mob.operations nodeName with
  | none => (true, { mob with operations := newOperations })
  | some operation =>
      if msgTime > operation.messageTime then
        (true, { mob with operations := newOperations })
      else
        (false, mob)

/-- `get` returns `(found, messageTime)`: not-found when the slot is empty or
holds a different kind. -/
def memberOperationBook.get (mob : memberOperationBook) (nodeName : String)
    (msgType : messageType) : Bool × logicalTime :=
  match mob.operations nodeName with
  | none => (false, zeroLogicalTime)
  | some operation =>
      if operation.msgType ≠ msgType then (false, zeroLogicalTime)
      else (true, operation.messageTime)

/-- `cleanup` on the gate: deletes every slot whose receive instant is older
than `timeout` (per-key independent, like the Go map-range-with-delete). -/
def memberOperationBook.cleanup (mob : memberOperationBook) (now : Int) :
    memberOperationBook :=
  let sweptOperations : String → Option memberOperation := fun nodeName =>
    match mob.operations nodeName with
    | none => none
    | some operation =>
        if now - operation.receiveTime > mob.timeout then none else some operation
  { mob with operations := sweptOperations }

/-- One recorded `save` call, for reasoning about call sequences on the gate. -/
structure saveCall where
  msgType : messageType
  nodeName : String
  msgTime : logicalTime
  now : Int

/-- Applies a sequence of `save` calls to the gate, left to right. -/
def applySaves (mob : memberOperationBook) : List saveCall → memberOperationBook
  | [] => mob
  | c :: rest => applySaves (mob.save c.msgType c.nodeName c.msgTime c.now).2 rest

/-- The logical time currently stored in a node's slot, if any. -/
def storedTime (mob : memberOperationBook) (nodeName : String) : Option logicalTime :=
  (mob.operations nodeName).map memberOperation.messageTime

/-! ## Characterizations of the registry loops -/

/-- The `remove` loop counts the matching records and keeps the others in
their original order. -/
theorem removeLoop_eq (memberName : String) (l : List memberStatus) :
    removeLoop memberName l =
      ((l.filter fun ms => ms.name = memberName).length,
        l.filter fun ms => ¬ ms.name = memberName) := by
  induction l with
  | nil => rfl
  | cons ms rest ih =>
      by_cases h : ms.name = memberName
      · simp only [removeLoop, ih, List.filter_cons, decide_eq_true_eq]
        rw [if_pos h, if_pos h, if_neg (not_not_intro h), List.length_cons]
      · simp only [removeLoop, ih, List.filter_cons, decide_eq_true_eq]
        rw [if_neg h, if_neg h, if_pos h]

/-- `remove` as a filter: the kept slice is the order-preserving filter of the
non-matching records, and the count is the number of matching ones. -/
theorem remove_eq (msb : memberStatusBook) (memberName : String) :
    msb.remove memberName =
      ((msb.members.filter fun ms => ms.name = memberName).length,
        { msb with members := msb.members.filter fun ms => ¬ ms.name = memberName }) := by
  simp [memberStatusBook.remove, removeLoop_eq]

/-- The registry `cleanup` loop partitions by the age test, preserving order. -/
theorem cleanupLoop_eq (timeout now : Int) (l : List memberStatus) :
    cleanupLoop timeout now l =
      (l.filter fun ms => now - ms.goneTime ≤ timeout,
        l.filter fun ms => ¬ now - ms.goneTime ≤ timeout) := by
  induction l with
  | nil => rfl
  | cons ms rest ih =>
      by_cases h : now - ms.goneTime ≤ timeout
      · simp only [cleanupLoop, ih, List.filter_cons, decide_eq_true_eq]
        rw [if_pos h, if_pos h, if_neg (not_not_intro h)]
      · simp only [cleanupLoop, ih, List.filter_cons, decide_eq_true_eq]
        rw [if_neg h, if_neg h, if_pos h]

/-- Registry `cleanup` as a filter pair: expired records returned, kept
records retained, timeout untouched. -/
theorem cleanup_eq (msb : memberStatusBook) (now : Int) :
    msb.cleanup now =
      (msb.members.filter fun ms => ¬ now - ms.goneTime ≤ msb.timeout,
        { msb with members := msb.members.filter fun ms => now - ms.goneTime ≤ msb.timeout }) := by
  simp [memberStatusBook.cleanup, cleanupLoop_eq]

/-- Filtering by a predicate and then by its negation leaves nothing. -/
theorem filter_not_of_filter {α : Type} (p : α → Prop) [DecidablePred p] (l : List α) :
    (l.filter fun a => p a).filter (fun a => ¬ p a) = [] := by
  induction l with
  | nil => rfl
  | cons a rest ih =>
      by_cases h : p a <;> simp [List.filter_cons, h, ih]

/-- Filtering twice by the same predicate is the same as filtering once. -/
theorem filter_self_of_filter {α : Type} (p : α → Prop) [DecidablePred p] (l : List α) :
    (l.filter fun a => p a).filter (fun a => p a) = l.filter fun a => p a := by
  induction l with
  | nil => rfl
  | cons a rest ih =>
      by_cases h : p a <;> simp [List.filter_cons, h, ih]

/-- Mapping the member name commutes with filtering by a predicate on names. -/
theorem names_filter_comm (p : String → Prop) [DecidablePred p] (l : List memberStatus) :
    ((l.filter fun ms => p ms.name).map fun ms => ms.name) =
      (l.map fun ms => ms.name).filter fun s => p s := by
  induction l with
  | nil => rfl
  | cons ms rest ih =>
      by_cases h : p ms.name <;> simp [List.filter_cons, h, ih]

/-! ## Concrete data for counterexamples -/

/-- A concrete member identity used in concrete evaluations. -/
def sampleMember : member :=
  { name := "n1", tags := [], address := [], port := 0, status := 0,
    memberListProtocolMin := 0, memberListProtocolMax := 0, memberListProtocolCurrent := 0,
    clusterProtocolMin := 0, clusterProtocolMax := 0, clusterProtocolCurrent := 0 }

/-- A live record: its `goneTime` is the unset zero instant. -/
def goneZeroStatus : memberStatus :=
  { tomember := sampleMember, lastMessageTime := 0, goneTime := 0 }

/-- A one-record registry with a ten-unit grace timeout. -/
def sampleBook : memberStatusBook := { members := [goneZeroStatus], timeout := 10 }

/-! ## Claims about the member status registry -/

/-- C3 (amended): `cleanup(now)` partitions the records purely by the age
test: exactly those with `now - goneTime ≤ timeout` are retained and exactly
those with `now - goneTime > timeout` are removed and returned, while the
configured timeout is unchanged. -/
theorem cleanup_partitions_by_age (msb : memberStatusBook) (now : Int) :
    (msb.cleanup now).2.members
        = (msb.members.filter fun ms => now - ms.goneTime ≤ msb.timeout)
      ∧ (msb.cleanup now).1
        = (msb.members.filter fun ms => ¬ now - ms.goneTime ≤ msb.timeout)
      ∧ (msb.cleanup now).2.timeout = msb.timeout := by
  rw [cleanup_eq]
  exact ⟨rfl, rfl, rfl⟩

/-- C3 counterexample: a live record (its `goneTime` is the unset zero
instant) is not retained by `cleanup`: with timeout 10, `cleanup 100` removes
it from the registry and returns it in the expired set, contradicting the
claim that every live record is kept. -/
theorem cleanup_drops_live_record :
    goneZeroStatus.goneTime = 0
      ∧ sampleBook.timeout = 10
      ∧ (sampleBook.cleanup 100).2.members = []
      ∧ (sampleBook.cleanup 100).1 = [goneZeroStatus] := by
  decide

/-- C6 (amended): the registry `cleanup` is idempotent at one instant: a
second `cleanup` with the same `now` and no intervening `add` returns an
empty expired set and leaves the registry exactly as the first call left
it. -/
theorem cleanup_idempotent_same_now (msb : memberStatusBook) (now : Int) :
    ((msb.cleanup now).2.cleanup now).1 = []
      ∧ ((msb.cleanup now).2.cleanup now).2 = (msb.cleanup now).2 := by
  simp only [cleanup_eq]
  constructor
  · exact filter_not_of_filter (fun ms => now - ms.goneTime ≤ msb.timeout) msb.members
  · rw [filter_self_of_filter (fun ms => now - ms.goneTime ≤ msb.timeout) msb.members]

/-- C6 counterexample: with a strictly larger (still non-decreasing) second
`now`, the second `cleanup` is not empty: a record kept at `now = 5` (age 5,
timeout 10) is expired at `now = 20`, so the second sweep returns it and
shrinks the registry. -/
theorem cleanup_second_sweep_nonempty :
    (5 : Int) ≤ 20
      ∧ ((sampleBook.cleanup 5).2.cleanup 20).1 = [goneZeroStatus]
      ∧ ((sampleBook.cleanup 5).2.cleanup 20).2.members = []
      ∧ (sampleBook.cleanup 5).2.members = [goneZeroStatus] := by
  decide

/-- C7: `remove(name)` drops every record whose member name equals `name`
(duplicates included), keeps every other record, returns the number of
matching records (0 when none match), and a second `remove` of the same name
returns 0. -/
theorem remove_all_matching (msb : memberStatusBook) (memberName : String) :
    (msb.remove memberName).1
        = (msb.members.filter fun ms => ms.name = memberName).length
      ∧ (∀ ms ∈ (msb.remove memberName).2.members, ¬ ms.name = memberName)
      ∧ (∀ ms ∈ msb.members, ¬ ms.name = memberName →
          ms ∈ (msb.remove memberName).2.members)
      ∧ ((∀ ms ∈ msb.members, ¬ ms.name = memberName) →
          (msb.remove memberName).1 = 0)
      ∧ ((msb.remove memberName).2.remove memberName).1 = 0 := by
  rw [remove_eq, remove_eq]
  refine ⟨rfl, ?_, ?_, ?_, ?_⟩
  · intro ms hms
    exact of_decide_eq_true (List.mem_filter.mp hms).2
  · intro ms hms hne
    exact List.mem_filter.mpr ⟨hms, decide_eq_true hne⟩
  · intro hall
    have : (msb.members.filter fun ms => ms.name = memberName) = [] := by
      rw [List.filter_eq_nil]
      intro ms hms
      simpa using hall ms hms
    rw [this]
    rfl
  · have : ((msb.members.filter fun ms => ¬ ms.name = memberName).filter
        fun ms => ms.name = memberName) = [] := by
      rw [List.filter_eq_nil]
      intro ms hms
      have := of_decide_eq_true (List.mem_filter.mp hms).2
      simpa using this
    rw [this]
    rfl

/-- C9: `add` appends the record unconditionally: the count grows by exactly
one, every previously held record is still at its old position, the new
record is present, and the configured timeout is unchanged. -/
theorem add_appends_record (msb : memberStatusBook) (m : memberStatus) :
    (msb.add m).Count = msb.Count + 1
      ∧ (∀ i, i < msb.Count → (msb.add m).members.get? i = msb.members.get? i)
      ∧ m ∈ (msb.add m).members
      ∧ (msb.add m).timeout = msb.timeout := by
  refine ⟨?_, ?_, ?_, rfl⟩
  · simp [memberStatusBook.add, memberStatusBook.Count]
  · intro i hi
    exact List.get?_append hi
  · simp [memberStatusBook.add]

/-- C10: `remove` and the registry `cleanup` act as order-preserving filters:
the retained sequence is the original one with exactly the matching
(respectively expired) records deleted, so the order seen through `names()`
is preserved. -/
theorem remove_cleanup_preserve_order (msb : memberStatusBook)
    (memberName : String) (now : Int) :
    (msb.remove memberName).2.members
        = (msb.members.filter fun ms => ¬ ms.name = memberName)
      ∧ (msb.cleanup now).2.members
        = (msb.members.filter fun ms => now - ms.goneTime ≤ msb.timeout)
      ∧ (msb.cleanup now).1
        = (msb.members.filter fun ms => ¬ now - ms.goneTime ≤ msb.timeout)
      ∧ (msb.remove memberName).2.names = (msb.names.filter fun s => ¬ s = memberName)
      ∧ (msb.cleanup now).2.names.Sublist msb.names
      ∧ (msb.remove memberName).2.names.Sublist msb.names := by
  rw [remove_eq, cleanup_eq]
  refine ⟨rfl, rfl, rfl, ?_, ?_, ?_⟩
  · exact names_filter_comm (fun s => ¬ s = memberName) msb.members
  · exact List.Sublist.map _ (List.filter_sublist msb.members)
  · exact List.Sublist.map _ (List.filter_sublist msb.members)

/-- C5: `randGet` fails (returns `none`, the guarded form of the reference's
out-of-bounds access) exactly on the empty registry; on a non-empty registry
it always returns one of the currently held records. -/
theorem randGet_sound (msb : memberStatusBook) (r : Nat) :
    (msb.randGet r = none ↔ msb.members = [])
      ∧ (∀ ms, msb.randGet r = some ms → ms ∈ msb.members)
      ∧ (msb.members ≠ [] → ∃ ms, msb.randGet r = some ms) := by
  have hsome : msb.members ≠ [] → ∃ ms, msb.randGet r = some ms := by
    intro hne
    have hlen : 0 < msb.members.length := List.length_pos.mpr hne
    have hlt : r % msb.members.length < msb.members.length := Nat.mod_lt _ hlen
    rcases h : msb.members.get? (r % msb.members.length) with _ | ms
    · rw [List.get?_eq_none] at h
      omega
    · exact ⟨ms, h⟩
  refine ⟨⟨?_, ?_⟩, ?_, hsome⟩
  · intro h
    by_contra hne
    obtain ⟨ms, hms⟩ := hsome hne
    rw [h] at hms
    exact Option.noConfusion hms
  · intro h
    simp [memberStatusBook.randGet, h]
  · intro ms h
    exact List.get?_mem h

/-! ## Lemmas about the operation gate -/

/-- An accepted `save` leaves the target node's slot holding exactly the new
fact. -/
theorem save_accepted_slot (mob : memberOperationBook) (K : messageType)
    (N : String) (t : logicalTime) (now : Int)
    (h : (mob.save K N t now).1 = true) :
    (mob.save K N t now).2.operations N =
      some { msgType := K, messageTime := t, receiveTime := now } := by
  rcases hop : mob.operations N with _ | op
  · simp [memberOperationBook.save, hop]
  · by_cases hlt : t > op.messageTime
    · simp [memberOperationBook.save, hop, hlt]
    · simp [memberOperationBook.save, hop, hlt] at h

/-- `save` never touches any slot other than the target node's. -/
theorem save_preserves_other_slot (mob : memberOperationBook) (K : messageType)
    (n' : String) (t : logicalTime) (now : Int) (N : String) (h : N ≠ n') :
    (mob.save K n' t now).2.operations N = mob.operations N := by
  rcases hop : mob.operations n' with _ | op
  · simp [memberOperationBook.save, hop, h]
  · by_cases hlt : t > op.messageTime <;>
      simp [memberOperationBook.save, hop, hlt, h]

/-- One `save` call never decreases the logical time stored in any slot. -/
theorem storedTime_save_mono (mob : memberOperationBook) (K : messageType)
    (n' : String) (t' : logicalTime) (now : Int) (N : String) (t : logicalTime)
    (h : storedTime mob N = some t) :
    ∃ u, t ≤ u ∧ storedTime (mob.save K n' t' now).2 N = some u := by
  by_cases hN : N = n'
  · subst hN
    rcases hop : mob.operations N with _ | op
    · rw [storedTime, hop] at h
      exact Option.noConfusion h
    · have ht : op.messageTime = t := by
        rw [storedTime, hop] at h
        simpa using h
      by_cases hlt : t' > op.messageTime
      · refine ⟨t', le_of_lt (ht ▸ hlt), ?_⟩
        have hacc : (mob.save K N t' now).1 = true := by
          simp [memberOperationBook.save, hop, hlt]
        rw [storedTime, save_accepted_slot mob K N t' now hacc]
        rfl
      · refine ⟨t, le_rfl, ?_⟩
        have : (mob.save K N t' now).2 = mob := by
          simp [memberOperationBook.save, hop, hlt]
        rw [this]
        exact h
  · refine ⟨t, le_rfl, ?_⟩
    rw [storedTime, save_preserves_other_slot mob K n' t' now N hN]
    exact h

/-- Across any sequence of `save` calls, the logical time stored in a slot
never decreases and the slot never empties. -/
theorem storedTime_applySaves_mono (calls : List saveCall)
    (mob : memberOperationBook) (N : String) (t : logicalTime)
    (h : storedTime mob N = some t) :
    ∃ u, t ≤ u ∧ storedTime (applySaves mob calls) N = some u := by
  induction calls generalizing mob t with
  | nil => exact ⟨t, le_rfl, h⟩
  | cons c rest ih =>
      obtain ⟨u, htu, hu⟩ :=
        storedTime_save_mono mob c.msgType c.nodeName c.msgTime c.now N t h
      obtain ⟨v, huv, hv⟩ := ih _ u hu
      exact ⟨v, le_trans htu huv, hv⟩

/-- A sequence of `save` calls naming only other nodes leaves a slot's stored
time unchanged. -/
theorem storedTime_applySaves_untouched (calls : List saveCall)
    (mob : memberOperationBook) (N : String)
    (h : ∀ c ∈ calls, c.nodeName ≠ N) :
    storedTime (applySaves mob calls) N = storedTime mob N := by
  induction calls generalizing mob with
  | nil => rfl
  | cons c rest ih =>
      have hc : N ≠ c.nodeName := Ne.symm (h c (by simp))
      rw [applySaves, ih _ (fun d hd => h d (by simp [hd])), storedTime, storedTime,
        save_preserves_other_slot mob c.msgType c.nodeName c.msgTime c.now N hc]

/-- A `save` whose logical time does not exceed the stored one is rejected
and leaves the gate unchanged. -/
theorem save_rejected_of_stored_ge (mob : memberOperationBook) (K : messageType)
    (N : String) (t2 : logicalTime) (now : Int) (u : logicalTime)
    (h : storedTime mob N = some u) (hle : t2 ≤ u) :
    (mob.save K N t2 now).1 = false ∧ (mob.save K N t2 now).2 = mob := by
  rcases hop : mob.operations N with _ | op
  · rw [storedTime, hop] at h
    exact Option.noConfusion h
  · have ht : op.messageTime = u := by
      rw [storedTime, hop] at h
      simpa using h
    have hnot : ¬ t2 > op.messageTime := by
      rw [ht]
      exact not_lt.mpr hle
    constructor <;> simp [memberOperationBook.save, hop, hnot]

/-! ## Claims about the operation gate -/

/-- C1: `save(kind, nodeName, messageTime)` returns true iff no record exists
for the node or the stored logical time is strictly smaller (the kind plays
no part in the comparison); on acceptance the node's slot is overwritten with
the new fact stamped `now` and nothing else changes; on rejection (equality
included) the gate is entirely unchanged. -/
theorem save_accepts_iff_strictly_newer (mob : memberOperationBook)
    (k : messageType) (n : String) (t : logicalTime) (now : Int) :
    ((mob.save k n t now).1 = true ↔
        mob.operations n = none ∨
          ∃ op, mob.operations n = some op ∧ op.messageTime < t)
      ∧ ((mob.save k n t now).1 = true →
          (mob.save k n t now).2.operations n =
              some { msgType := k, messageTime := t, receiveTime := now }
            ∧ (∀ m, m ≠ n → (mob.save k n t now).2.operations m = mob.operations m)
            ∧ (mob.save k n t now).2.timeout = mob.timeout)
      ∧ ((mob.save k n t now).1 = false → (mob.save k n t now).2 = mob) := by
  refine ⟨?_, ?_, ?_⟩
  · rcases hop : mob.operations n with _ | op
    · simp [memberOperationBook.save, hop]
    · by_cases hlt : t > op.messageTime <;>
        simp [memberOperationBook.save, hop, hlt]
  · intro hacc
    refine ⟨save_accepted_slot mob k n t now hacc, ?_, ?_⟩
    · intro m hm
      exact save_preserves_other_slot mob k n t now m hm
    · rcases hop : mob.operations n with _ | op
      · simp [memberOperationBook.save, hop]
      · by_cases hlt : t > op.messageTime <;>
          simp [memberOperationBook.save, hop, hlt]
  · intro hrej
    rcases hop : mob.operations n with _ | op
    · simp [memberOperationBook.save, hop] at hrej
    · by_cases hlt : t > op.messageTime
      · simp [memberOperationBook.save, hop, hlt] at hrej
      · simp [memberOperationBook.save, hop, hlt]

/-- C2: once `save(K, N, t1)` is accepted, the time stored for `N` never
decreases across any further sequence of `save` calls; a later
`save(K', N, t2)` with `t2 ≤ t1` is rejected and leaves the whole gate (in
particular `N`'s stored time) unchanged, and that stored time is exactly `t1`
when no intervening call named `N`. -/
theorem save_monotonic_rejects_stale (mob : memberOperationBook)
    (K : messageType) (N : String) (t1 : logicalTime) (now1 : Int)
    (calls : List saveCall) (K' : messageType) (t2 : logicalTime) (now2 : Int)
    (hacc : (mob.save K N t1 now1).1 = true) (hle : t2 ≤ t1) :
    ((applySaves (mob.save K N t1 now1).2 calls).save K' N t2 now2).1 = false
      ∧ ((applySaves (mob.save K N t1 now1).2 calls).save K' N t2 now2).2
          = applySaves (mob.save K N t1 now1).2 calls
      ∧ (∃ u, t1 ≤ u ∧
          storedTime (applySaves (mob.save K N t1 now1).2 calls) N = some u)
      ∧ ((∀ c ∈ calls, c.nodeName ≠ N) →
          storedTime
              (((applySaves (mob.save K N t1 now1).2 calls).save K' N t2 now2).2) N
            = some t1) := by
  have h1 : storedTime (mob.save K N t1 now1).2 N = some t1 := by
    rw [storedTime, save_accepted_slot mob K N t1 now1 hacc]
    rfl
  obtain ⟨u, hu1, hu2⟩ := storedTime_applySaves_mono calls _ N t1 h1
  have hrej := save_rejected_of_stored_ge _ K' N t2 now2 u hu2 (le_trans hle hu1)
  refine ⟨hrej.1, hrej.2, ⟨u, hu1, hu2⟩, ?_⟩
  intro hun
  rw [hrej.2, storedTime_applySaves_untouched calls _ N hun, h1]

/-- Witness for C2: from the empty gate, a join fact for node n1 at logical
time 5 is accepted; after an unrelated save for node n2, a leave fact for n1
at equal time 5 is rejected. -/
theorem save_monotonic_rejects_stale_witness :
    ((applySaves ((createMemberOperationBook 30).save "join" "n1" 5 0).2
        [{ msgType := "join", nodeName := "n2", msgTime := 3, now := 1 }]).save
          "leave" "n1" 5 2).1 = false :=
  (save_monotonic_rejects_stale (createMemberOperationBook 30) "join" "n1" 5 0
    [{ msgType := "join", nodeName := "n2", msgTime := 3, now := 1 }]
    "leave" 5 2 rfl (by decide)).1

/-- C4: `get(nodeName, kind)` returns `(false, zero)` when no record exists
for the node or the stored record's kind differs from the requested one, and
otherwise returns `(true, stored time)`; in particular after an accepted
`save("join", n, 5)` the gate answers `(false, zero)` for kind leave and
`(true, 5)` for kind join. -/
theorem get_found_iff_kind_matches (mob : memberOperationBook) (n : String)
    (k : messageType) :
    ((mob.get n k).1 = false ↔
        mob.operations n = none ∨
          ∃ op, mob.operations n = some op ∧ op.msgType ≠ k)
      ∧ ((mob.get n k).1 = false → (mob.get n k).2 = zeroLogicalTime)
      ∧ (∀ op, mob.operations n = some op → op.msgType = k →
          mob.get n k = (true, op.messageTime))
      ∧ (∀ now : Int, (mob.save "join" n 5 now).1 = true →
          (mob.save "join" n 5 now).2.get n "leave" = (false, zeroLogicalTime)
            ∧ (mob.save "join" n 5 now).2.get n "join" = (true, 5)) := by
  refine ⟨?_, ?_, ?_, ?_⟩
  · rcases hop : mob.operations n with _ | op
    · simp [memberOperationBook.get, hop]
    · by_cases hne : op.msgType ≠ k <;>
        simp [memberOperationBook.get, hop, hne]
  · intro hfalse
    rcases hop : mob.operations n with _ | op
    · simp [memberOperationBook.get, hop]
    · by_cases hne : op.msgType ≠ k
      · simp [memberOperationBook.get, hop, hne]
      · simp [memberOperationBook.get, hop, hne] at hfalse
  · intro op hop hk
    simp [memberOperationBook.get, hop, hk]
  · intro now hacc
    have hslot := save_accepted_slot mob "join" n 5 now hacc
    have hne : ("join" : messageType) ≠ "leave" := by decide
    constructor
    · simp [memberOperationBook.get, hslot, hne]
    · simp [memberOperationBook.get, hslot]

/-- C8: the gate `cleanup(now)` deletes exactly the slots whose receive
instant is older than the timeout (`now - receiveTime > timeout`), no matter
what kind or logical time they store, keeps every younger record unchanged,
and leaves the configured timeout alone. -/
theorem gate_cleanup_by_receive_age (mob : memberOperationBook) (now : Int)
    (n : String) :
    ((mob.cleanup now).operations n = none ↔
        mob.operations n = none ∨
          ∃ op, mob.operations n = some op ∧ now - op.receiveTime > mob.timeout)
      ∧ (∀ op, mob.operations n = some op → ¬ now - op.receiveTime > mob.timeout →
          (mob.cleanup now).operations n = some op)
      ∧ (mob.cleanup now).timeout = mob.timeout := by
  refine ⟨?_, ?_, rfl⟩
  · rcases hop : mob.operations n with _ | op
    · simp [memberOperationBook.cleanup, hop]
    · by_cases hgt : now - op.receiveTime > mob.timeout <;>
        simp [memberOperationBook.cleanup, hop, hgt]
  · intro op hop hle
    simp [memberOperationBook.cleanup, hop, hle]
